import Mathlib

/-!
Verification development for the lambdaroach application server.

The Go sources are shallowly embedded as Lean functions:

* `src/server/main.go` — site registry (`addSite`, `findSite`), the launch
  critical section of `serve`, the drain loop of `stop`, and the
  https-only redirect branch of `serve`;
* `src/server/admin.go` — `cleanFilePerm`, `cleanDirPerm`, and the upload
  loop of `handleConnection`;
* the `shared` package — `EndsWith`, `Copy`, and the message structures.

Go strings are embedded as `String` where only equality matters and as
`List Char` where the claims need induction over their characters.
Go `int` is embedded as `Int`, `os.FileMode` (a `uint32`) as `Nat`
reduced modulo `2 ^ 32`.
-/

namespace Lambdaroach

/-- shared.EndsWith: `if sn < pn return false; return s[sn-pn:sn] == postfix`. -/
def goEndsWith (s post : String) : Bool :=
  let sn := s.toList.length
  let pn := post.toList.length
  if sn < pn then false
  else (s.toList.drop (sn - pn)) == post.toList

/-- Site (server/main.go): the static description of an application server.
The `running`, `certid` and `static` fields play no role in the claims
about the registry and are omitted; `version` is a Go `int`. -/
structure GoSite where
  id : String
  version : Int
  hostnames : List String
  paths : List String
  env : List String
  command : String
  data : String
  httpsOnly : Bool
deriving DecidableEq, Repr

/-- relation used by `sort.Sort(byVersion(...))`: `Less(i, j) = a[i].version > a[j].version`,
so the sorted order has `a.version ≥ b.version` for consecutive elements. -/
def versionGE (a b : GoSite) : Prop := b.version ≤ a.version

instance : DecidableRel versionGE := fun a b =>
  inferInstanceAs (Decidable (b.version ≤ a.version))

instance : IsTotal GoSite versionGE :=
  ⟨fun a b => (le_total b.version a.version).elim Or.inl Or.inr⟩

instance : IsTrans GoSite versionGE :=
  ⟨fun _ _ _ hab hbc => le_trans hbc hab⟩

/-- strictly-descending-by-version relation, as claimed by spec invariant P3. -/
def versionGT (a b : GoSite) : Prop := b.version < a.version

instance : DecidableRel versionGT := fun a b =>
  inferInstanceAs (Decidable (b.version < a.version))

/-- the `sort.Sort(byVersion(routes[host]))` call: sorts descending by version. -/
def sortByVersion (l : List GoSite) : List GoSite :=
  l.insertionSort versionGE

/-- Registry state of server/main.go: `sites` (append-only history),
`latestSites`, and the `routes` map, embedded as a total function that
returns `[]` for absent keys (Go map read of a missing key yields nil). -/
structure Registry where
  sites : List GoSite
  latestSites : List GoSite
  routes : String → List GoSite

def emptyRegistry : Registry := ⟨[], [], fun _ => []⟩

/-- the latestSites update loop of addSite: walk the list; on the first
entry with the same id, panic (`none`) if the version is also equal,
otherwise replace it in place and stop; if no entry matches, append. -/
def updateLatest : List GoSite → GoSite → Option (List GoSite)
  | [], site => some [site]
  | s :: rest, site =>
    if s.id = site.id then
      if s.version = site.version then none
      else some (site :: rest)
    else (updateLatest rest site).map (fun l => s :: l)

/-- `routes[host] = append(routes[host], site); sort.Sort(byVersion(routes[host]))`. -/
def addRoute (routes : String → List GoSite) (host : String) (site : GoSite) :
    String → List GoSite :=
  fun h => if h = host then sortByVersion (routes host ++ [site]) else routes h

/-- addSite (server/main.go, lines 72-105). `none` models the
"registering known site" panic. After updating `latestSites` and the
history, the site is appended and re-sorted into `routes[h]` for each of
its hostnames; the pseudo-host `"localhost"` is populated while exactly
one site is registered and emptied otherwise. -/
def addSite (st : Registry) (site : GoSite) : Option Registry :=
  match updateLatest st.latestSites site with
  | none => none
  | some latest =>
    let sites := st.sites ++ [site]
    let routes := site.hostnames.foldl (fun r h => addRoute r h site) st.routes
    let routes :=
      if latest.length = 1 then addRoute routes "localhost" site
      else fun h => if h = "localhost" then [] else routes h
    some ⟨sites, latest, routes⟩

/-- a sequence of addSite calls; `none` if any of them panics. -/
def addSites : Registry → List GoSite → Option Registry
  | st, [] => some st
  | st, s :: rest =>
    match addSite st s with
    | none => none
    | some st' => addSites st' rest

/-- findSite (server/main.go, lines 107-119): linear scan of the history
keeping the first encountered entry with the given id whose version is
strictly larger than the best so far. -/
def findSite (sites : List GoSite) (id : String) : Option GoSite :=
  sites.foldl
    (fun res s =>
      if s.id = id then
        match res with
        | none => some s
        | some r => if r.version < s.version then some s else res
      else res)
    none

/-- the version computation of handleConnection (server/admin.go, lines 104-108):
`version = 1; if lastSite := findSite(app.Name); lastSite != nil { version = lastSite.version + 1 }`. -/
def goVersionFor (sites : List GoSite) (name : String) : Int :=
  match findSite sites name with
  | none => 1
  | some lastSite => lastSite.version + 1

/-! ## The launch critical section of serve (server/main.go, lines 329-351)

All contenders that observed `running == nil` serialize on the
process-global `launchlock`; `site.running` is written only inside that
critical section (under the registry lock as well), so the concurrent
execution is equivalent to running the critical sections in some order.
The state tracks `site.running` (as an optional run identifier), how many
children have been spawned, and the next fresh run identifier. `launch`
is modeled as succeeding (the claim is about the spawn count on the
successful path). -/

structure LaunchState where
  running : Option Nat
  spawned : Nat
  nextRun : Nat
deriving DecidableEq, Repr

/-- one contender inside `launchlock`: re-check `site.running`; if another
request populated it, reuse that one; otherwise launch a child and publish
it in `site.running`. Returns the new state and the RunningSite this
contender ends up proxying to. -/
def launchCriticalSection (st : LaunchState) : LaunchState × Nat :=
  match st.running with
  | some r => (st, r)
  | none => (⟨some st.nextRun, st.spawned + 1, st.nextRun + 1⟩, st.nextRun)

/-- n contenders run the critical section one after another. -/
def runContenders : Nat → LaunchState → LaunchState × List Nat
  | 0, st => (st, [])
  | n + 1, st =>
    let p := launchCriticalSection st
    let q := runContenders n p.1
    (q.1, p.2 :: q.2)

/-- a fresh site: `site.running == nil`, no child spawned yet. -/
def freshSiteState : LaunchState := ⟨none, 0, 0⟩

/-! ## stop and its drain loop (server/main.go, lines 201-255) -/

/-- the clearing step of stop (lines 207-220): under the registry lock,
clear `site.running` only when it still equals `r`; the return flag says
whether this caller cleared the field (and hence owns teardown). -/
def stopClear (running : Option Nat) (r : Nat) : Option Nat × Bool :=
  if running = some r then (none, true) else (running, false)

inductive DrainOutcome
  | drained
  | fatal
  | forced
  | spinning
deriving DecidableEq, Repr

/-- the drain loop of stop (lines 227-246), transcribed branch for branch.
`w t` is the value `atomic.LoadInt64(&running.working)` observed at the
t-th poll; `tries` and the count of executed `time.Sleep(100ms)` calls are
threaded through; `fuel` bounds the number of loop iterations we unfold,
with `.spinning` meaning the loop is still running after that many
iterations. The loop body is:
`tries++; s := load(working); if s > 0 continue; if s < 0 Fatal;
 if s == 0 break; if tries > 100 force-break; sleep(100ms)`. -/
def drainLoop (w : Nat → Int) : Nat → Nat → Nat → DrainOutcome × Nat
  | 0, _, sleeps => (.spinning, sleeps)
  | fuel + 1, tries, sleeps =>
    let t := tries + 1
    let s := w t
    if 0 < s then drainLoop w fuel t sleeps
    else if s < 0 then (.fatal, sleeps)
    else if s = 0 then (.drained, sleeps)
    else if 100 < t then (.forced, sleeps)
    else drainLoop w fuel t (sleeps + 1)

/-! ## The https-only redirect branch of serve (server/main.go, lines 296-310) -/

/-- index of the last occurrence of a character, counting from the front
(`last(hostport, ':')` inside net.SplitHostPort). -/
def lastIndexOf (c : Char) : List Char → Option Nat
  | [] => none
  | x :: xs =>
    match lastIndexOf c xs with
    | some i => some (i + 1)
    | none => if x = c then some 0 else none

/-- net.SplitHostPort for non-bracketed host:port forms (the IPv6
`[...]:port` branch is elided; the claims only involve hostnames).
On a missing port or a stray colon Go returns `("", "", err)`; the third
component is the success flag. -/
def goSplitHostPort (s : List Char) : List Char × List Char × Bool :=
  match lastIndexOf ':' s with
  | none => ([], [], false)
  | some i =>
    let host := s.take i
    if host.contains ':' then ([], [], false)
    else (host, (s.drop (i + 1), true))

/-- url.URL.String for the URL built at lines 304-307: scheme "https",
host as computed, opaque/user empty, path as in the request. Go writes
`"https:"`, then `"//"` whenever host or path is non-empty, then host and
path. -/
def urlStringHTTPS (host path : List Char) : List Char :=
  "https:".toList ++ (if host ≠ [] ∨ path ≠ [] then "//".toList else []) ++ host ++ path

/-- the body of `if site.httpsOnly && r.TLS == nil` (lines 296-310):
404 (`none`) on an empty Host header, otherwise 302 with the Location
built from `net.SplitHostPort(r.Host)`'s host — whose error return is
discarded, leaving host `""` when the header carries no port. -/
def serveHTTPSOnlyRedirect (rHost rPath : List Char) : Option (List Char) :=
  if rHost = [] then none
  else some (urlStringHTTPS (goSplitHostPort rHost).1 rPath)

/-! ## Permission cleaning (server/admin.go, lines 19-27 and 38-46)

`os.FileMode` is a `uint32`; in its encoding `ModePerm = 0o777`,
`ModeSetuid = 2^23`, `ModeSetgid = 2^22`, `ModeSticky = 2^20`. The Go
conversion `os.FileMode(perm)` truncates the `int` to 32 bits. -/

def goModePerm : Nat := 0o777
def goModeSetuid : Nat := 2 ^ 23
def goModeSetgid : Nat := 2 ^ 22
def goModeSticky : Nat := 2 ^ 20

/-- the mask `os.ModeSetgid | os.ModeSetuid | os.ModeSticky | os.ModePerm`. -/
def goPermMask : Nat := goModeSetgid ||| goModeSetuid ||| goModeSticky ||| goModePerm

/-- the conversion `os.FileMode(perm)`: the int taken modulo `2 ^ 32`. -/
def intToFileMode (p : Int) : Nat := (p % (2 ^ 32 : Int)).toNat

/-- cleanFilePerm (server/admin.go, lines 19-27). -/
def cleanFilePerm (perm : Int) : Nat :=
  if perm = -1 then 0
  else if perm = 0 then 0o664
  else intToFileMode perm &&& goPermMask

/-- cleanDirPerm (server/admin.go, lines 38-46). -/
def cleanDirPerm (perm : Int) : Nat :=
  if perm = -1 then 0
  else if perm = 0 then 0o755
  else intToFileMode perm &&& goPermMask

/-! ## The upload handler (server/admin.go, handleConnection) -/

/-- shared.AppMessage (all eight fields, field names as in the Go struct). -/
structure GoAppMessage where
  name : String
  version : String
  command : String
  hosts : List String
  env : List String
  tls : Bool
  letsEncryptEmail : String
  httpsOnly : Bool
deriving DecidableEq, Repr

/-- shared.FileMessage. -/
structure GoFileMessage where
  name : String
  size : Int
  perm : Int
deriving DecidableEq, Repr

/-- shared.Status. -/
structure GoStatus where
  ok : Bool
  msg : String
deriving DecidableEq, Repr

inductive FilesOutcome
  | done
  | abort (msg : String)
  | fatalCrash
deriving DecidableEq, Repr

/-- the 10 MiB size cap of server/admin.go line 135. -/
def sizeCap : Int := 10 * 1024 * 1024

/-- the file-receiving loop of handleConnection (server/admin.go, lines
124-176) over the sequence of parsed FileMessages. Exhausting the list
without a terminator corresponds to ReadJSON0 failing on a closed
connection. `needtls` counts the cert/key files still expected (2, then 1,
then 0). Filesystem writes are modeled as succeeding; the `log.Fatal` in
writeDir on a directory message with a non-zero size is `.fatalCrash`. -/
def processFiles : Nat → List GoFileMessage → FilesOutcome
  | _, [] => .abort "error reading file message"
  | needtls, f :: rest =>
    if f.name = "" ∧ f.size ≤ 0 then .done
    else if sizeCap < f.size then .abort "file size too large"
    else if goEndsWith f.name "/" = true ∧ f.size ≤ 0 then
      if f.size ≠ 0 then .fatalCrash
      else processFiles needtls rest
    else if needtls = 2 then processFiles 1 rest
    else if needtls = 1 then processFiles 0 rest
    else processFiles needtls rest

/-- the observable outcome of one admin connection: whether `/tmp/<id>`
was removed, the Status written back, and the site passed to addSite. -/
structure UploadResult where
  removedBase : Bool
  status : GoStatus
  addedSite : Option GoSite
deriving DecidableEq, Repr

/-- handleConnection (server/admin.go, lines 73-224) from the point the
AppMessage has been parsed and `/tmp/<id>` created: compute the version
from the registry, run the file loop, and either roll back with
`Status{false, msg}` (errorConnection) or write `Status{true, ""}` and
install the new site. `none` models a `log.Fatal` crash. -/
def handleUpload (sites : List GoSite) (base : String) (app : GoAppMessage)
    (msgs : List GoFileMessage) : Option UploadResult :=
  let version := goVersionFor sites app.name
  match processFiles (if app.tls then 2 else 0) msgs with
  | .fatalCrash => none
  | .abort m => some ⟨true, ⟨false, m⟩, none⟩
  | .done =>
    some ⟨false, ⟨true, ""⟩,
      some ⟨app.name, version, app.hosts, ["/"], app.env, app.command, base, app.httpsOnly⟩⟩

/-! ## The argv construction of launch (server/main.go, line 158)

`strings.Split(strings.Replace(site.command, "${PORT}", ports, -1), " ")` -/

/-- strings.Split on the single character `' '` (Lean list form): split
around every space, keeping empty pieces. -/
def goSplitSpace : List Char → List (List Char)
  | [] => [[]]
  | c :: cs =>
    match goSplitSpace cs with
    | [] => [[c]]
    | t :: ts => if c = ' ' then [] :: t :: ts else (c :: t) :: ts

/-- rebuild a string from pieces with single spaces in between (the
inverse direction of `goSplitSpace`). -/
def joinSpace : List (List Char) → List Char
  | [] => []
  | [t] => t
  | t :: ts => t ++ ' ' :: joinSpace ts

/-- the pattern `"${PORT}"`. -/
def portPat : List Char := "${PORT}".toList

/-- strings.Replace(s, "${PORT}", rep, -1): replace each leftmost
non-overlapping occurrence. The fuel starts at the string length; every
step consumes at least one character, so the fuel never runs out. -/
def goReplaceAux (rep : List Char) : Nat → List Char → List Char
  | _, [] => []
  | 0, s => s
  | fuel + 1, c :: cs =>
    if portPat.isPrefixOf (c :: cs) then
      rep ++ goReplaceAux rep fuel ((c :: cs).drop portPat.length)
    else c :: goReplaceAux rep fuel cs

def goReplacePort (cmd rep : List Char) : List Char :=
  goReplaceAux rep cmd.length cmd

/-- the argv computed by launch: substitute, then split on spaces. -/
def goArgv (command port : List Char) : List (List Char) :=
  goSplitSpace (goReplacePort command port)

def isWhitespaceChar (c : Char) : Bool :=
  (c == ' ') || (c == '\t') || (c == '\n') || (c == '\r')

/-- Modelled from the spec: "whitespace-splitting the result into argv
tokens" — tokens are the maximal whitespace-free runs (strings.Fields
semantics), written here only to compare with `goArgv`. -/
def specFieldsAux : List Char → List Char → List (List Char)
  | [], acc => if acc = [] then [] else [acc.reverse]
  | c :: cs, acc =>
    if isWhitespaceChar c then
      if acc = [] then specFieldsAux cs []
      else acc.reverse :: specFieldsAux cs []
    else specFieldsAux cs (c :: acc)

def specWhitespaceTokens (s : List Char) : List (List Char) :=
  specFieldsAux s []

/-- the argv the claim describes: substitute, then whitespace-tokenize. -/
def specArgv (command port : List Char) : List (List Char) :=
  specWhitespaceTokens (goReplacePort command port)

/-! ## shared.Copy (the shared package, lines 94-122)

The reader is a trace of Read results (`data` is the chunk `buf[0:nr]`,
so `nr = data.length`; `err` is the error returned alongside). The writer
is a trace of Write results, one consumed per call; an exhausted writer
trace answers every further call with a full successful write. Exhausting
the reader trace stands for a reader that reports EOF with no data. -/

inductive RdErr
  | eof
  | fail (code : Nat)
deriving DecidableEq, Repr

structure ReadEv where
  data : List Nat
  err : Option RdErr
deriving DecidableEq, Repr

structure WriteEv where
  nw : Nat
  err : Option Nat
deriving DecidableEq, Repr

inductive WErr
  | wfail (code : Nat)
  | shortWrite
deriving DecidableEq, Repr

/-- result of Copy: `written`, the bytes actually handed to dst, and the
two error returns `werr` and `rerr`. -/
structure CopyResult where
  written : Nat
  dst : List Nat
  werr : Option WErr
  rerr : Option Nat
deriving DecidableEq, Repr

def nextWrite (ws : List WriteEv) (nr : Nat) : WriteEv × List WriteEv :=
  match ws with
  | [] => (⟨nr, none⟩, [])
  | w :: ws' => (w, ws')

/-- the loop of shared.Copy, branch for branch: read; if nr > 0 write the
chunk, accumulate nw when positive, break on a write error, then on a
short write; then break on EOF, break recording a read error, or loop. -/
def goCopy : List ReadEv → List WriteEv → Nat → List Nat → CopyResult
  | [], _, written, dst => ⟨written, dst, none, none⟩
  | ev :: rs, ws, written, dst =>
    let nr := ev.data.length
    if 0 < nr then
      let wev := nextWrite ws nr
      let nw := wev.1.nw
      let written' := if 0 < nw then written + nw else written
      let dst' := dst ++ ev.data.take nw
      match wev.1.err with
      | some e => ⟨written', dst', some (.wfail e), none⟩
      | none =>
        if nr ≠ nw then ⟨written', dst', some .shortWrite, none⟩
        else
          match ev.err with
          | some .eof => ⟨written', dst', none, none⟩
          | some (.fail e) => ⟨written', dst', none, some e⟩
          | none => goCopy rs wev.2 written' dst'
    else
      match ev.err with
      | some .eof => ⟨written, dst, none, none⟩
      | some (.fail e) => ⟨written, dst, none, some e⟩
      | none => goCopy rs ws written dst

/-- shared.Copy(dst, src) over the two traces. -/
def sharedCopy (rs : List ReadEv) (ws : List WriteEv) : CopyResult :=
  goCopy rs ws 0 []

/-! ## Theorems -/

/-- once the running slot is populated, further contenders change nothing
and all read the same RunningSite. -/
lemma runContenders_stable (n : Nat) (st : LaunchState) (r : Nat)
    (h : st.running = some r) : runContenders n st = (st, List.replicate n r) := by
  induction n with
  | zero => simp [runContenders]
  | succ m ih =>
    simp only [runContenders, launchCriticalSection, h, List.replicate]
    rw [ih]

/-- C1: any number n ≥ 1 of concurrent first requests to a fresh site
(running == nil), serialized by the process-global launch mutex, spawn
exactly one child; every contender ends up with the RunningSite installed
by the winner (the re-check of site.running after taking the mutex). -/
theorem single_flight_launch (n : Nat) (h : 1 ≤ n) :
    (runContenders n freshSiteState).1.spawned = 1
    ∧ (runContenders n freshSiteState).1.running = some 0
    ∧ ∀ x ∈ (runContenders n freshSiteState).2, x = 0 := by
  obtain ⟨m, rfl⟩ : ∃ m, n = m + 1 := ⟨n - 1, by omega⟩
  have hstep : launchCriticalSection freshSiteState = (⟨some 0, 1, 1⟩, 0) := rfl
  simp only [runContenders, hstep]
  rw [runContenders_stable m ⟨some 0, 1, 1⟩ 0 rfl]
  refine ⟨rfl, rfl, ?_⟩
  intro x hx
  rcases List.mem_cons.mp hx with h0 | h0
  · exact h0
  · exact List.eq_of_mem_replicate h0

theorem single_flight_launch_witness :
    (runContenders 10 freshSiteState).1.spawned = 1
    ∧ (runContenders 10 freshSiteState).1.running = some 0 :=
  ⟨(single_flight_launch 10 (by decide)).1, (single_flight_launch 10 (by decide)).2.1⟩

/-- in the drain loop, the `tries > 100` force-stop branch and the
`time.Sleep(100ms)` call are dead code: the three preceding tests on the
loaded working value are exhaustive. -/
lemma drainLoop_never_forced_never_sleeps (w : Nat → Int) :
    ∀ fuel tries sleeps,
      (drainLoop w fuel tries sleeps).1 ≠ DrainOutcome.forced
      ∧ (drainLoop w fuel tries sleeps).2 = sleeps := by
  intro fuel
  induction fuel with
  | zero => intro tries sleeps; exact ⟨by simp [drainLoop], rfl⟩
  | succ m ih =>
    intro tries sleeps
    simp only [drainLoop]
    by_cases h1 : 0 < w (tries + 1)
    · simpa [h1] using ih (tries + 1) sleeps
    · by_cases h2 : w (tries + 1) < 0
      · simp [h1, h2]
      · have h3 : w (tries + 1) = 0 := by omega
        simp [h1, h2, h3]

/-- with an in-flight request that never finishes (working stays 1), the
loop never terminates, however many iterations are unfolded. -/
lemma drainLoop_spins_forever :
    ∀ fuel tries sleeps,
      drainLoop (fun _ => 1) fuel tries sleeps = (DrainOutcome.spinning, sleeps) := by
  intro fuel
  induction fuel with
  | zero => intro tries sleeps; rfl
  | succ m ih =>
    intro tries sleeps
    simp only [drainLoop]
    norm_num
    exact ih (tries + 1) sleeps

/-- C2: the claimed drain behavior fails on the code. stop does clear
site.running only when it still equals r (the `stopClear` conjuncts), but
the drain loop's `continue` on working > 0 skips both the sleep and the
100-iteration cutoff: the force-stop branch is unreachable, no sleep is
ever executed, and with working pinned at 1 the loop spins forever instead
of reaching SIGKILL within ~10 seconds. -/
theorem stop_drain_bug :
    (∀ w fuel tries sleeps,
      (drainLoop w fuel tries sleeps).1 ≠ DrainOutcome.forced
      ∧ (drainLoop w fuel tries sleeps).2 = sleeps)
    ∧ (∀ fuel tries sleeps,
        drainLoop (fun _ => 1) fuel tries sleeps = (DrainOutcome.spinning, sleeps))
    ∧ drainLoop (fun _ => 1) 200 0 0 = (DrainOutcome.spinning, 0)
    ∧ stopClear (some 7) 7 = (none, true)
    ∧ stopClear (some 8) 7 = (some 8, false) :=
  ⟨fun w fuel tries sleeps => drainLoop_never_forced_never_sleeps w fuel tries sleeps,
   drainLoop_spins_forever,
   drainLoop_spins_forever 200 0 0,
   rfl, rfl⟩

/-- the output of `sort.Sort(byVersion(...))` is descending by version. -/
lemma sorted_sortByVersion (l : List GoSite) :
    List.Sorted versionGE (sortByVersion l) :=
  List.sorted_insertionSort versionGE l

lemma sorted_addRoute (routes : String → List GoSite) (host : String) (site : GoSite)
    (hr : ∀ h, List.Sorted versionGE (routes h)) :
    ∀ h, List.Sorted versionGE (addRoute routes host site h) := by
  intro h
  by_cases hh : h = host
  · simpa [addRoute, hh] using sorted_sortByVersion (routes host ++ [site])
  · simpa [addRoute, hh] using hr h

lemma sorted_foldl_addRoute (site : GoSite) :
    ∀ (hosts : List String) (routes : String → List GoSite),
      (∀ h, List.Sorted versionGE (routes h)) →
      ∀ h, List.Sorted versionGE
        ((hosts.foldl (fun r hh => addRoute r hh site) routes) h) := by
  intro hosts
  induction hosts with
  | nil => intro routes hr h; simpa using hr h
  | cons x xs ih =>
    intro routes hr h
    simpa [List.foldl] using ih (addRoute routes x site) (sorted_addRoute routes x site hr) h

lemma sorted_addSite (st : Registry) (site : GoSite) (st' : Registry)
    (h : addSite st site = some st')
    (hs : ∀ hh, List.Sorted versionGE (st.routes hh)) :
    ∀ hh, List.Sorted versionGE (st'.routes hh) := by
  intro hh
  unfold addSite at h
  cases e : updateLatest st.latestSites site with
  | none => rw [e] at h; exact absurd h (by simp)
  | some latest =>
    rw [e] at h
    simp only [Option.some.injEq] at h
    subst h
    simp only
    split
    · exact sorted_addRoute _ "localhost" site
        (sorted_foldl_addRoute site site.hostnames st.routes hs) hh
    · by_cases hl : hh = "localhost"
      · simp [hl]
      · simpa [hl] using sorted_foldl_addRoute site site.hostnames st.routes hs hh

lemma sorted_addSites :
    ∀ (calls : List GoSite) (st st' : Registry),
      addSites st calls = some st' →
      (∀ hh, List.Sorted versionGE (st.routes hh)) →
      ∀ hh, List.Sorted versionGE (st'.routes hh) := by
  intro calls
  induction calls with
  | nil =>
    intro st st' h hs
    simp only [addSites, Option.some.injEq] at h
    subst h; exact hs
  | cons s rest ih =>
    intro st st' h hs
    simp only [addSites] at h
    cases e : addSite st s with
    | none => rw [e] at h; exact absurd h (by simp)
    | some st1 =>
      rw [e] at h
      exact ih st1 st' h (sorted_addSite st s st1 e hs)

/-- C3 (amended): after any successful sequence of addSite calls from the
empty registry, every routes[h] is sorted descending (non-strictly) by
version. -/
theorem routes_sorted_descending (calls : List GoSite) (st : Registry)
    (h : addSites emptyRegistry calls = some st) (host : String) :
    List.Sorted versionGE (st.routes host) :=
  sorted_addSites calls emptyRegistry st h (fun _ => List.sorted_nil) host

theorem routes_sorted_descending_witness :
    List.Sorted versionGE
      (((addSites emptyRegistry
          [⟨"a", 1, ["h"], ["/"], [], "", "", false⟩,
           ⟨"b", 1, ["h"], ["/"], [], "", "", false⟩]).getD emptyRegistry).routes "h") :=
  routes_sorted_descending
    [⟨"a", 1, ["h"], ["/"], [], "", "", false⟩, ⟨"b", 1, ["h"], ["/"], [], "", "", false⟩]
    ((addSites emptyRegistry
        [⟨"a", 1, ["h"], ["/"], [], "", "", false⟩,
         ⟨"b", 1, ["h"], ["/"], [], "", "", false⟩]).getD emptyRegistry)
    rfl "h"

/-- C3 counterexample: two sites with different ids but the same version
and hostname make routes["h"] weakly, not strictly, descending — its
version list is [1, 1]. -/
theorem routes_strict_sort_counterexample :
    (addSites emptyRegistry
        [⟨"a", 1, ["h"], ["/"], [], "", "", false⟩,
         ⟨"b", 1, ["h"], ["/"], [], "", "", false⟩]).isSome = true
    ∧ ((((addSites emptyRegistry
          [⟨"a", 1, ["h"], ["/"], [], "", "", false⟩,
           ⟨"b", 1, ["h"], ["/"], [], "", "", false⟩]).getD emptyRegistry).routes "h").map
          GoSite.version) = [1, 1]
    ∧ ¬ List.Sorted versionGT
        (((addSites emptyRegistry
            [⟨"a", 1, ["h"], ["/"], [], "", "", false⟩,
             ⟨"b", 1, ["h"], ["/"], [], "", "", false⟩]).getD emptyRegistry).routes "h") := by
  refine ⟨rfl, rfl, ?_⟩
  intro hsorted
  have := List.rel_of_sorted_cons hsorted
  simp [versionGT] at this

/-- C4: on a plain-HTTP request to an httpsOnly site whose Host header
carries no port (the common case on port 80), net.SplitHostPort fails,
the discarded error leaves host = "", and the 302 Location is
"https:///a" instead of "https://h/a". With an explicit port the
redirect is as the claim describes. -/
theorem httpsonly_redirect_empty_host_bug :
    serveHTTPSOnlyRedirect "h".toList "/a".toList = some "https:///a".toList
    ∧ "https:///a".toList ≠ "https://h/a".toList
    ∧ serveHTTPSOnlyRedirect "h:8000".toList "/a".toList = some "https://h/a".toList :=
  ⟨by decide, by decide, by decide⟩

/-- C5: a FileMessage over the 10 MiB cap aborts the loop with
"file size too large"; one of exactly 10 MiB passes the check and the
loop continues; an aborted loop makes handleConnection remove /tmp/<id>,
write Status{false, msg} and install no site. -/
theorem upload_size_cap :
    (∀ (needtls : Nat) (f : GoFileMessage) (rest : List GoFileMessage),
      (sizeCap < f.size →
        processFiles needtls (f :: rest) = FilesOutcome.abort "file size too large")
      ∧ (f.size = sizeCap →
          processFiles needtls (f :: rest) =
            processFiles (if needtls = 2 then 1 else if needtls = 1 then 0 else needtls) rest))
    ∧ (∀ (sites : List GoSite) (base : String) (app : GoAppMessage)
        (msgs : List GoFileMessage) (m : String),
        processFiles (if app.tls then 2 else 0) msgs = FilesOutcome.abort m →
          handleUpload sites base app msgs = some ⟨true, ⟨false, m⟩, none⟩) := by
  constructor
  · intro needtls f rest
    have hcap : (0 : Int) < sizeCap := by decide
    constructor
    · intro hsz
      have hpos : (0 : Int) < f.size := lt_trans hcap hsz
      simp only [processFiles]
      rw [if_neg (by omega : ¬(f.name = "" ∧ f.size ≤ 0)), if_pos hsz]
    · intro hsz
      have hpos : (0 : Int) < f.size := hsz ▸ hcap
      simp only [processFiles]
      rw [if_neg (by omega : ¬(f.name = "" ∧ f.size ≤ 0)),
        if_neg (by omega : ¬ sizeCap < f.size),
        if_neg (by omega : ¬(goEndsWith f.name "/" = true ∧ f.size ≤ 0))]
      by_cases h2 : needtls = 2
      · simp [h2]
      · by_cases h1 : needtls = 1 <;> simp [h1, h2]
  · intro sites base app msgs m h
    unfold handleUpload
    rw [h]

theorem upload_size_cap_witness :
    processFiles 0 [⟨"x", 10 * 1024 * 1024 + 1, 0⟩]
      = FilesOutcome.abort "file size too large"
    ∧ processFiles 0 [⟨"x", 10 * 1024 * 1024, 0⟩, ⟨"", 0, 0⟩]
      = processFiles (if (0 : Nat) = 2 then 1 else if (0 : Nat) = 1 then 0 else 0) [⟨"", 0, 0⟩]
    ∧ handleUpload [] "/tmp/x" ⟨"a", "v", "c", ["h"], [], false, "", false⟩
        [⟨"x", 10 * 1024 * 1024 + 1, 0⟩]
      = some ⟨true, ⟨false, "file size too large"⟩, none⟩ :=
  ⟨(upload_size_cap.1 0 ⟨"x", 10 * 1024 * 1024 + 1, 0⟩ []).1 (by decide),
   (upload_size_cap.1 0 ⟨"x", 10 * 1024 * 1024, 0⟩ [⟨"", 0, 0⟩]).2 (by decide),
   upload_size_cap.2 [] "/tmp/x" ⟨"a", "v", "c", ["h"], [], false, "", false⟩
     [⟨"x", 10 * 1024 * 1024 + 1, 0⟩] "file size too large" (by decide)⟩

/-- the loop invariant of findSite: over the processed prefix, a `nil`
accumulator means no id match yet, a non-nil one holds a matching entry of
maximal version. -/
def FindInv (name : String) (processed : List GoSite) : Option GoSite → Prop
  | none => ∀ s ∈ processed, s.id ≠ name
  | some r => r ∈ processed ∧ r.id = name
      ∧ ∀ s ∈ processed, s.id = name → s.version ≤ r.version

/-- the loop body of findSite, named so the invariant lemmas can rewrite
with its equations (definitionally the lambda inside `findSite`). -/
def findSiteStep (name : String) (res : Option GoSite) (s : GoSite) : Option GoSite :=
  if s.id = name then
    match res with
    | none => some s
    | some r => if r.version < s.version then some s else res
  else res

lemma findSite_step (name : String) (processed : List GoSite) (acc : Option GoSite)
    (s : GoSite) (hinv : FindInv name processed acc) :
    FindInv name (processed ++ [s]) (findSiteStep name acc s) := by
  by_cases hid : s.id = name
  · cases acc with
    | none =>
      rw [show findSiteStep name none s = some s by simp [findSiteStep, hid]]
      refine ⟨List.mem_append_right _ (List.mem_singleton_self s), hid, ?_⟩
      intro t ht hname
      rcases List.mem_append.mp ht with h | h
      · exact absurd hname (hinv t h)
      · rw [List.mem_singleton.mp h]
    | some r =>
      obtain ⟨hmem, hname, hmax⟩ := hinv
      by_cases hv : r.version < s.version
      · rw [show findSiteStep name (some r) s = some s by simp [findSiteStep, hid, hv]]
        refine ⟨List.mem_append_right _ (List.mem_singleton_self s), hid, ?_⟩
        intro t ht htname
        rcases List.mem_append.mp ht with h | h
        · exact le_of_lt (lt_of_le_of_lt (hmax t h htname) hv)
        · rw [List.mem_singleton.mp h]
      · rw [show findSiteStep name (some r) s = some r by simp [findSiteStep, hid, hv]]
        refine ⟨List.mem_append_left _ hmem, hname, ?_⟩
        intro t ht htname
        rcases List.mem_append.mp ht with h | h
        · exact hmax t h htname
        · rw [List.mem_singleton.mp h]; omega
  · rw [show findSiteStep name acc s = acc by simp [findSiteStep, hid]]
    cases acc with
    | none =>
      intro t ht
      rcases List.mem_append.mp ht with h | h
      · exact hinv t h
      · rw [List.mem_singleton.mp h]; exact hid
    | some r =>
      obtain ⟨hmem, hname, hmax⟩ := hinv
      refine ⟨List.mem_append_left _ hmem, hname, ?_⟩
      intro t ht htname
      rcases List.mem_append.mp ht with h | h
      · exact hmax t h htname
      · exact absurd (List.mem_singleton.mp h ▸ htname) hid

lemma findSite_go (name : String) :
    ∀ (sites processed : List GoSite) (acc : Option GoSite),
      FindInv name processed acc →
      FindInv name (processed ++ sites) (sites.foldl (findSiteStep name) acc) := by
  intro sites
  induction sites with
  | nil => intro processed acc h; simpa using h
  | cons s rest ih =>
    intro processed acc h
    have step := findSite_step name processed acc s h
    have := ih (processed ++ [s]) _ step
    simpa [List.append_assoc] using this

/-- C6: findSite(id) returns nil exactly when no descriptor in the history
has that id, and otherwise a descriptor of that id carrying the maximal
version among them; the upload version is 1 in the first case and that
maximal version + 1 in the second. -/
theorem version_assignment_findSite (sites : List GoSite) (name : String) :
    (findSite sites name = none →
      (∀ s ∈ sites, s.id ≠ name) ∧ goVersionFor sites name = 1)
    ∧ (∀ r, findSite sites name = some r →
        r ∈ sites ∧ r.id = name
        ∧ (∀ s ∈ sites, s.id = name → s.version ≤ r.version)
        ∧ goVersionFor sites name = r.version + 1) := by
  have hgo := findSite_go name sites [] none (by intro s h; exact absurd h (List.not_mem_nil s))
  rw [List.nil_append] at hgo
  have hfind : findSite sites name = sites.foldl (findSiteStep name) none := rfl
  constructor
  · intro hnone
    rw [hfind] at hnone
    rw [hnone] at hgo
    exact ⟨hgo, by unfold goVersionFor; rw [hfind, hnone]⟩
  · intro r hr
    rw [hfind] at hr
    rw [hr] at hgo
    obtain ⟨hmem, hname, hmax⟩ := hgo
    exact ⟨hmem, hname, hmax, by unfold goVersionFor; rw [hfind, hr]⟩

theorem version_assignment_findSite_witness :
    ((⟨"a", 2, ["h"], ["/"], [], "", "", false⟩ : GoSite)
        ∈ [(⟨"a", 1, ["h"], ["/"], [], "", "", false⟩ : GoSite),
           ⟨"a", 2, ["h"], ["/"], [], "", "", false⟩])
    ∧ goVersionFor
        [(⟨"a", 1, ["h"], ["/"], [], "", "", false⟩ : GoSite),
         ⟨"a", 2, ["h"], ["/"], [], "", "", false⟩] "a" = 3 :=
  ⟨((version_assignment_findSite
      [⟨"a", 1, ["h"], ["/"], [], "", "", false⟩, ⟨"a", 2, ["h"], ["/"], [], "", "", false⟩]
      "a").2 ⟨"a", 2, ["h"], ["/"], [], "", "", false⟩ rfl).1,
   ((version_assignment_findSite
      [⟨"a", 1, ["h"], ["/"], [], "", "", false⟩, ⟨"a", 2, ["h"], ["/"], [], "", "", false⟩]
      "a").2 ⟨"a", 2, ["h"], ["/"], [], "", "", false⟩ rfl).2.2.2⟩

/-- the mask `ModeSetgid | ModeSetuid | ModeSticky | ModePerm` holds
exactly bits 0..8 (rwx), 20 (sticky), 22 (setgid) and 23 (setuid). -/
lemma goPermMask_testBit (i : Nat) :
    goPermMask.testBit i = decide (i ≤ 8 ∨ i = 20 ∨ i = 22 ∨ i = 23) := by
  rcases Nat.lt_or_ge i 24 with h | h
  · interval_cases i <;> decide
  · have hlt : goPermMask < 2 ^ i :=
      lt_of_lt_of_le (by decide) (Nat.pow_le_pow_right (by decide) h)
    rw [Nat.testBit_eq_false_of_lt hlt]
    have h8 : ¬(i ≤ 8 ∨ i = 20 ∨ i = 22 ∨ i = 23) := by omega
    simp [h8]

/-- C8: perm 0 maps to 0664 for files and 0755 for directories, perm -1
maps to 0, and any other perm keeps exactly the 9 rwx bits plus the
setuid (bit 23), setgid (bit 22) and sticky (bit 20) bits of the
os.FileMode encoding of perm, discarding every other bit. -/
theorem clean_perm_bits :
    cleanFilePerm 0 = 0o664 ∧ cleanDirPerm 0 = 0o755
    ∧ cleanFilePerm (-1) = 0 ∧ cleanDirPerm (-1) = 0
    ∧ ∀ p : Int, p ≠ 0 → p ≠ -1 → ∀ i : Nat,
        ((cleanFilePerm p).testBit i
          ↔ (intToFileMode p).testBit i ∧ (i ≤ 8 ∨ i = 20 ∨ i = 22 ∨ i = 23))
        ∧ cleanDirPerm p = cleanFilePerm p := by
  refine ⟨rfl, rfl, rfl, rfl, ?_⟩
  intro p hp0 hp1 i
  constructor
  · unfold cleanFilePerm
    rw [if_neg hp1, if_neg hp0, Nat.testBit_land, goPermMask_testBit]
    simp [Bool.and_eq_true, decide_eq_true_iff]
  · unfold cleanFilePerm cleanDirPerm
    rw [if_neg hp1, if_neg hp0, if_neg hp1, if_neg hp0]

theorem clean_perm_bits_witness :
    ((cleanFilePerm 4095).testBit 11
      ↔ (intToFileMode 4095).testBit 11 ∧ (11 ≤ 8 ∨ 11 = 20 ∨ 11 = 22 ∨ 11 = 23))
    ∧ cleanDirPerm 4095 = cleanFilePerm 4095 :=
  clean_perm_bits.2.2.2.2 4095 (by decide) (by decide) 11

lemma goSplitSpace_ne_nil : ∀ s, goSplitSpace s ≠ [] := by
  intro s
  induction s with
  | nil => simp [goSplitSpace]
  | cons c cs ih =>
    simp only [goSplitSpace]
    cases h : goSplitSpace cs with
    | nil => simp
    | cons t ts => by_cases hc : c = ' ' <;> simp [hc]

lemma joinSpace_cons_cons (c : Char) (t : List Char) (ts : List (List Char)) :
    joinSpace ((c :: t) :: ts) = c :: joinSpace (t :: ts) := by
  cases ts <;> rfl

/-- splitting on spaces and re-joining with single spaces is the identity:
the argv tokens reassemble exactly to the substituted command string. -/
lemma joinSpace_goSplitSpace : ∀ s, joinSpace (goSplitSpace s) = s := by
  intro s
  induction s with
  | nil => rfl
  | cons c cs ih =>
    cases h : goSplitSpace cs with
    | nil => exact absurd h (goSplitSpace_ne_nil cs)
    | cons t ts =>
      have hsplit : goSplitSpace (c :: cs)
          = if c = ' ' then [] :: t :: ts else (c :: t) :: ts := by
        simp only [goSplitSpace, h]
      rw [h] at ih
      by_cases hc : c = ' '
      · rw [hsplit, if_pos hc,
          show joinSpace ([] :: t :: ts) = ' ' :: joinSpace (t :: ts) from rfl, ih, hc]
      · rw [hsplit, if_neg hc, joinSpace_cons_cons, ih]

/-- no token produced by the space-split contains a space. -/
lemma goSplitSpace_no_space : ∀ s, ∀ t ∈ goSplitSpace s, ' ' ∉ t := by
  intro s
  induction s with
  | nil =>
    intro t ht
    simp only [goSplitSpace, List.mem_singleton] at ht
    subst ht; simp
  | cons c cs ih =>
    intro tok htok
    cases h : goSplitSpace cs with
    | nil => exact absurd h (goSplitSpace_ne_nil cs)
    | cons t0 ts =>
      have hsplit : goSplitSpace (c :: cs)
          = if c = ' ' then [] :: t0 :: ts else (c :: t0) :: ts := by
        simp only [goSplitSpace, h]
      rw [hsplit] at htok
      by_cases hc : c = ' '
      · rw [if_pos hc] at htok
        rcases List.mem_cons.mp htok with h1 | h1
        · subst h1; simp
        · exact ih tok (by rw [h]; exact h1)
      · rw [if_neg hc] at htok
        rcases List.mem_cons.mp htok with h1 | h1
        · subst h1
          intro hsp
          rcases List.mem_cons.mp hsp with h2 | h2
          · exact hc h2.symm
          · exact ih t0 (by rw [h]; exact List.mem_cons_self t0 ts) h2
        · exact ih tok (by rw [h]; exact List.mem_cons.mpr (Or.inr h1))

/-- C7 (amended): launch's argv comes from substituting ${PORT} and
splitting on single space characters: the tokens are space-free and
re-joining them with single spaces reconstructs the substituted command
(so consecutive spaces yield empty tokens and other whitespace such as a
tab stays inside a token). -/
theorem argv_space_split (command port : List Char) :
    joinSpace (goArgv command port) = goReplacePort command port
    ∧ ∀ t ∈ goArgv command port, ' ' ∉ t :=
  ⟨joinSpace_goSplitSpace _, fun t ht => goSplitSpace_no_space _ t ht⟩

theorem argv_space_split_witness :
    joinSpace (goArgv "a b".toList "1".toList) = goReplacePort "a b".toList "1".toList
    ∧ ' ' ∉ (['a'] : List Char) :=
  ⟨(argv_space_split "a b".toList "1".toList).1,
   (argv_space_split "a b".toList "1".toList).2 ['a'] (by decide)⟩

/-- C7 counterexample: on the command "a\tb" the code's argv is the single
token "a\tb" (tab is not a separator for strings.Split(s, " ")), while
whitespace-tokenizing as the claim states would give ["a", "b"]. -/
theorem argv_whitespace_counterexample :
    goArgv ['a', '\t', 'b'] ['9'] = [['a', '\t', 'b']]
    ∧ specArgv ['a', '\t', 'b'] ['9'] = [['a'], ['b']]
    ∧ goArgv ['a', '\t', 'b'] ['9'] ≠ specArgv ['a', '\t', 'b'] ['9'] := by
  decide

/-- invariant of the Copy loop: if `written` matches the bytes delivered
so far, the final result has at most one error set, and when the writer
side never failed, the final count matches the bytes delivered to dst. -/
lemma goCopy_inv :
    ∀ (rs : List ReadEv) (ws : List WriteEv) (written : Nat) (dst : List Nat),
      written = dst.length →
      ((goCopy rs ws written dst).werr = none ∨ (goCopy rs ws written dst).rerr = none)
      ∧ ((goCopy rs ws written dst).werr = none →
          (goCopy rs ws written dst).written = (goCopy rs ws written dst).dst.length) := by
  intro rs
  induction rs with
  | nil =>
    intro ws written dst hw
    exact ⟨Or.inl rfl, fun _ => hw⟩
  | cons ev rest ih =>
    intro ws written dst hw
    rcases ev with ⟨data, err⟩
    cases data with
    | nil =>
      cases err with
      | none =>
        have hred : goCopy (⟨[], none⟩ :: rest) ws written dst
            = goCopy rest ws written dst := by
          simp [goCopy]
        rw [hred]
        exact ih ws written dst hw
      | some e =>
        cases e with
        | eof =>
          have hred : goCopy (⟨[], some RdErr.eof⟩ :: rest) ws written dst
              = ⟨written, dst, none, none⟩ := by
            simp [goCopy]
          rw [hred]
          exact ⟨Or.inl rfl, fun _ => hw⟩
        | fail c =>
          have hred : goCopy (⟨[], some (RdErr.fail c)⟩ :: rest) ws written dst
              = ⟨written, dst, none, some c⟩ := by
            simp [goCopy]
          rw [hred]
          exact ⟨Or.inl rfl, fun _ => hw⟩
    | cons d ds =>
      have hlen : 0 < (d :: ds).length := by simp
      cases ws with
      | nil =>
        have hw' : written + (d :: ds).length = (dst ++ d :: ds).length := by
          simp [hw]
        cases err with
        | none =>
          have hred : goCopy (⟨d :: ds, none⟩ :: rest) [] written dst
              = goCopy rest [] (written + (d :: ds).length) (dst ++ d :: ds) := by
            simp [goCopy, nextWrite, hlen]
          rw [hred]
          exact ih [] _ _ hw'
        | some e =>
          cases e with
          | eof =>
            have hred : goCopy (⟨d :: ds, some RdErr.eof⟩ :: rest) [] written dst
                = ⟨written + (d :: ds).length, dst ++ d :: ds, none, none⟩ := by
              simp [goCopy, nextWrite, hlen]
            rw [hred]
            exact ⟨Or.inl rfl, fun _ => hw'⟩
          | fail c =>
            have hred : goCopy (⟨d :: ds, some (RdErr.fail c)⟩ :: rest) [] written dst
                = ⟨written + (d :: ds).length, dst ++ d :: ds, none, some c⟩ := by
              simp [goCopy, nextWrite, hlen]
            rw [hred]
            exact ⟨Or.inl rfl, fun _ => hw'⟩
      | cons w ws' =>
        cases hwe : w.err with
        | some e =>
          have hred : goCopy (⟨d :: ds, err⟩ :: rest) (w :: ws') written dst
              = ⟨if 0 < w.nw then written + w.nw else written,
                 dst ++ (d :: ds).take w.nw, some (WErr.wfail e), none⟩ := by
            simp [goCopy, nextWrite, hlen, hwe]
          rw [hred]
          exact ⟨Or.inr rfl, fun hcontra => by simp at hcontra⟩
        | none =>
          by_cases hnw : (d :: ds).length = w.nw
          · have hpos : 0 < w.nw := hnw ▸ hlen
            have htake : (d :: ds).take w.nw = d :: ds := by
              rw [← hnw, List.take_length]
            have hw' : written + w.nw = (dst ++ d :: ds).length := by
              simp [hw, ← hnw]
            cases err with
            | none =>
              have hred : goCopy (⟨d :: ds, none⟩ :: rest) (w :: ws') written dst
                  = goCopy rest ws' (written + w.nw) (dst ++ d :: ds) := by
                simp [goCopy, nextWrite, hlen, hwe, ← hnw, htake, hpos]
              rw [hred]
              exact ih ws' _ _ hw'
            | some e =>
              cases e with
              | eof =>
                have hred : goCopy (⟨d :: ds, some RdErr.eof⟩ :: rest) (w :: ws') written dst
                    = ⟨written + w.nw, dst ++ d :: ds, none, none⟩ := by
                  simp [goCopy, nextWrite, hlen, hwe, ← hnw, htake, hpos]
                rw [hred]
                exact ⟨Or.inl rfl, fun _ => hw'⟩
              | fail c =>
                have hred : goCopy (⟨d :: ds, some (RdErr.fail c)⟩ :: rest) (w :: ws') written dst
                    = ⟨written + w.nw, dst ++ d :: ds, none, some c⟩ := by
                  simp [goCopy, nextWrite, hlen, hwe, ← hnw, htake, hpos]
                rw [hred]
                exact ⟨Or.inl rfl, fun _ => hw'⟩
          · have hnw' : ¬ ds.length + 1 = w.nw := by simpa using hnw
            have hred : goCopy (⟨d :: ds, err⟩ :: rest) (w :: ws') written dst
                = ⟨if 0 < w.nw then written + w.nw else written,
                   dst ++ (d :: ds).take w.nw, some WErr.shortWrite, none⟩ := by
              simp [goCopy, nextWrite, hlen, hwe, hnw']
            rw [hred]
            exact ⟨Or.inr rfl, fun hcontra => by simp at hcontra⟩

/-- on a clean run — writer always succeeds in full, reader ends with EOF
or runs out — both returned errors are nil. -/
lemma goCopy_clean :
    ∀ (rs : List ReadEv) (written : Nat) (dst : List Nat),
      (∀ ev ∈ rs, ev.err = none ∨ ev.err = some RdErr.eof) →
      (goCopy rs [] written dst).werr = none ∧ (goCopy rs [] written dst).rerr = none := by
  intro rs
  induction rs with
  | nil => intro written dst _; exact ⟨rfl, rfl⟩
  | cons ev rest ih =>
    intro written dst h
    have hev := h ev (List.mem_cons_self ev rest)
    have hrest : ∀ e ∈ rest, e.err = none ∨ e.err = some RdErr.eof :=
      fun e he => h e (List.mem_cons.mpr (Or.inr he))
    rcases ev with ⟨data, err⟩
    simp only at hev
    cases data with
    | nil =>
      rcases hev with h0 | h0 <;> subst h0
      · have hred : goCopy (⟨[], none⟩ :: rest) [] written dst
            = goCopy rest [] written dst := by
          simp [goCopy]
        rw [hred]
        exact ih written dst hrest
      · have hred : goCopy (⟨[], some RdErr.eof⟩ :: rest) [] written dst
            = ⟨written, dst, none, none⟩ := by
          simp [goCopy]
        rw [hred]
        exact ⟨rfl, rfl⟩
    | cons d ds =>
      have hlen : 0 < (d :: ds).length := by simp
      rcases hev with h0 | h0 <;> subst h0
      · have hred : goCopy (⟨d :: ds, none⟩ :: rest) [] written dst
            = goCopy rest [] (written + (d :: ds).length) (dst ++ d :: ds) := by
          simp [goCopy, nextWrite, hlen]
        rw [hred]
        exact ih _ _ hrest
      · have hred : goCopy (⟨d :: ds, some RdErr.eof⟩ :: rest) [] written dst
            = ⟨written + (d :: ds).length, dst ++ d :: ds, none, none⟩ := by
          simp [goCopy, nextWrite, hlen]
        rw [hred]
        exact ⟨rfl, rfl⟩

/-- C9: shared.Copy returns at most one non-nil error (a write failure,
short writes included, lands in werr with rerr nil; a read failure lands
in rerr with werr nil); whenever no write failed, the returned count
equals the number of bytes handed to dst; and on a clean EOF run both
errors are nil. -/
theorem copy_single_error (rs : List ReadEv) (ws : List WriteEv) :
    ((sharedCopy rs ws).werr = none ∨ (sharedCopy rs ws).rerr = none)
    ∧ ((sharedCopy rs ws).werr = none →
        (sharedCopy rs ws).written = (sharedCopy rs ws).dst.length)
    ∧ ((∀ ev ∈ rs, ev.err = none ∨ ev.err = some RdErr.eof) →
        (sharedCopy rs []).werr = none ∧ (sharedCopy rs []).rerr = none) := by
  obtain ⟨h1, h2⟩ := goCopy_inv rs ws 0 [] rfl
  exact ⟨h1, h2, fun hc => goCopy_clean rs 0 [] hc⟩

theorem copy_single_error_witness :
    ((sharedCopy [⟨[1, 2], some RdErr.eof⟩] []).werr = none
      ∨ (sharedCopy [⟨[1, 2], some RdErr.eof⟩] []).rerr = none)
    ∧ (sharedCopy [⟨[1, 2], some RdErr.eof⟩] []).written
        = (sharedCopy [⟨[1, 2], some RdErr.eof⟩] []).dst.length
    ∧ (sharedCopy [⟨[1, 2], some RdErr.eof⟩] []).rerr = none :=
  ⟨(copy_single_error [⟨[1, 2], some RdErr.eof⟩] []).1,
   (copy_single_error [⟨[1, 2], some RdErr.eof⟩] []).2.1 (by decide),
   ((copy_single_error [⟨[1, 2], some RdErr.eof⟩] []).2.2 (by decide)).2⟩

/-- C10: the server never reads AppMessage.Version — two uploads differing
only in that string produce identical results — and the version of an
installed site is computed solely from the registry state for the app's
name. -/
theorem upload_ignores_appmessage_version :
    (∀ (sites : List GoSite) (base : String) (app : GoAppMessage)
        (msgs : List GoFileMessage) (v1 v2 : String),
      handleUpload sites base { app with version := v1 } msgs
        = handleUpload sites base { app with version := v2 } msgs)
    ∧ (∀ (sites : List GoSite) (base : String) (app : GoAppMessage)
        (msgs : List GoFileMessage) (r : UploadResult) (site : GoSite),
        handleUpload sites base app msgs = some r → r.addedSite = some site →
          site.version = goVersionFor sites app.name) := by
  constructor
  · intro sites base app msgs v1 v2
    rfl
  · intro sites base app msgs r site hr hsite
    unfold handleUpload at hr
    cases hpf : processFiles (if app.tls then 2 else 0) msgs with
    | fatalCrash => rw [hpf] at hr; exact absurd hr (by simp)
    | abort m =>
      rw [hpf] at hr
      simp only [Option.some.injEq] at hr
      rw [← hr] at hsite
      exact absurd hsite (by simp)
    | done =>
      rw [hpf] at hr
      simp only [Option.some.injEq] at hr
      rw [← hr] at hsite
      simp only [Option.some.injEq] at hsite
      rw [← hsite]

theorem upload_ignores_appmessage_version_witness :
    handleUpload [] "/t" ⟨"a", "v1", "c", ["h"], [], false, "", false⟩ [⟨"", 0, 0⟩]
      = handleUpload [] "/t" ⟨"a", "v2", "c", ["h"], [], false, "", false⟩ [⟨"", 0, 0⟩]
    ∧ (⟨"a", 1, ["h"], ["/"], [], "c", "/t", false⟩ : GoSite).version
        = goVersionFor [] "a" :=
  ⟨upload_ignores_appmessage_version.1 [] "/t"
      ⟨"a", "x", "c", ["h"], [], false, "", false⟩ [⟨"", 0, 0⟩] "v1" "v2",
   upload_ignores_appmessage_version.2 [] "/t"
      ⟨"a", "x", "c", ["h"], [], false, "", false⟩ [⟨"", 0, 0⟩]
      ⟨false, ⟨true, ""⟩, some ⟨"a", 1, ["h"], ["/"], [], "c", "/t", false⟩⟩
      ⟨"a", 1, ["h"], ["/"], [], "c", "/t", false⟩ (by decide) rfl⟩

end Lambdaroach
